import Mathlib

/-!
Shallow embedding of the subdomain-enumeration server of this
repository.  The canonical implementation is cmd/server/main.go; the
historical, more feature-rich variant unnamed/part_005 is modelled
separately where a claim refers to it.  Go strings are modelled as
lists of byte values (List Nat); every string the claims touch is
ASCII, where Go byte length and rune length coincide.
-/

/-- Go strings, modelled as lists of byte values. -/
abbrev GoStr := List Nat

/-- Byte list of an ASCII Lean string literal. -/
def strL (s : String) : GoStr := s.data.map Char.toNat

/-- ASCII lowercasing of one byte, the ASCII fragment of Go
strings.ToLower. -/
def asciiLower (b : Nat) : Nat := if 65 ≤ b ∧ b ≤ 90 then b + 32 else b

/-- Go strings.ToLower on an ASCII string. -/
def lowerStr (s : GoStr) : GoStr := s.map asciiLower

/-- ASCII fragment of Go unicode.IsSpace, the class trimmed by
strings.TrimSpace. -/
def isGoSpace (b : Nat) : Bool :=
  b == 9 || b == 10 || b == 11 || b == 12 || b == 13 || b == 32

/-- Character class of the Go regexp \s, used by the whitespace
collapsing step: [\t\n\f\r ]. -/
def isReSpace (b : Nat) : Bool :=
  b == 9 || b == 10 || b == 12 || b == 13 || b == 32

/-- Go strings.TrimSpace (ASCII fragment). -/
def trimSpaceGo (s : GoStr) : GoStr :=
  ((s.dropWhile isGoSpace).reverse.dropWhile isGoSpace).reverse

/-- Go strings.ReplaceAll with one-byte pattern r and one-byte
replacement x. -/
def replByte (r x : Nat) (s : GoStr) : GoStr :=
  s.map (fun b => if b = r then x else b)

/-- One pass of regexp.ReplaceAllString over the pattern \s+ with
replacement a single space: each maximal run of \s bytes becomes one
32 byte.  The flag records whether the previous byte was part of a
run. -/
def collapseGo (flag : Bool) : GoStr → GoStr
  | [] => []
  | b :: rest =>
    if isReSpace b then
      if flag then collapseGo true rest else 32 :: collapseGo true rest
    else b :: collapseGo false rest

/-- regexp MustCompile \s+ ReplaceAllString with a single space. -/
def collapseWS (s : GoStr) : GoStr := collapseGo false s

/-- Decimal digits of a natural number, fuelled to stay structurally
recursive; models fmt.Sprintf with the %d verb for the values the
server prints (the fuel n+1 always suffices). -/
def natDigitsGo : Nat → Nat → GoStr
  | 0, _ => []
  | f + 1, n => if n < 10 then [48 + n] else natDigitsGo f (n / 10) ++ [48 + n % 10]

/-- fmt.Sprintf with the %d verb. -/
def natDigits (n : Nat) : GoStr := natDigitsGo (n + 1) n

/-- Go strings.Split with a one-byte separator. -/
def splitOnB (b : Nat) : GoStr → List GoStr
  | [] => [[]]
  | c :: rest =>
    let r := splitOnB b rest
    if c = b then [] :: r
    else
      match r with
      | [] => [[c]]
      | h :: t => (c :: h) :: t

/-- Go strings.Contains: does sub occur inside s. -/
def containsB : GoStr → GoStr → Bool
  | [], sub => sub.isEmpty
  | c :: rest, sub => sub.isPrefixOf (c :: rest) || containsB rest sub

/-- Go strings.HasSuffix. -/
def endsWithB (s suf : GoStr) : Bool := suf.isSuffixOf s

/-- Go strings.HasPrefix. -/
def startsWithB (s p : GoStr) : Bool := p.isPrefixOf s

/-- Checker: no two adjacent bytes are both regexp whitespace. -/
def noWsRun : GoStr → Bool
  | [] => true
  | [_] => true
  | a :: b :: r => !(isReSpace a && isReSpace b) && noWsRun (b :: r)

/-- Checker: the first and last byte, when present, are not Go
whitespace. -/
def noEdgeWS (s : GoStr) : Bool :=
  (match s.head? with
   | some c => !isGoSpace c
   | none => true) &&
  (match s.getLast? with
   | some c => !isGoSpace c
   | none => true)

/-- The 12 fixed prefixes of generatePermutations in
cmd/server/main.go. -/
def pfxTbl : List GoStr :=
  [strL "dev", strL "test", strL "stage", strL "staging", strL "prod",
   strL "production", strL "www", strL "api", strL "admin", strL "app",
   strL "mobile", strL "m"]

/-- The 11 fixed suffixes of generatePermutations in
cmd/server/main.go. -/
def sfxTbl : List GoStr :=
  [strL "dev", strL "test", strL "stage", strL "staging", strL "prod",
   strL "production", strL "api", strL "admin", strL "backup", strL "old",
   strL "new"]

/-- generatePermutations from cmd/server/main.go lines 865-897: the
imperative append loops become left folds that append to the
accumulated slice in loop order. -/
def generatePermutations (domain : GoStr) : List GoStr :=
  let permutations : List GoStr :=
    pfxTbl.foldl (fun acc p => acc ++ [p ++ 46 :: domain]) []
  let parts := splitOnB 46 domain
  let permutations :=
    if 2 ≤ parts.length then
      let baseDomain := parts.headD []
      let tld := List.intercalate [46] parts.tail
      sfxTbl.foldl
        (fun acc sfx =>
          acc ++ [baseDomain ++ 45 :: (sfx ++ 46 :: tld),
                  baseDomain ++ sfx ++ 46 :: tld]) permutations
    else permutations
  (List.range 10).foldl
    (fun acc i =>
      acc ++ [strL "www" ++ natDigits (i + 1) ++ 46 :: domain,
              strL "mail" ++ natDigits (i + 1) ++ 46 :: domain,
              strL "ftp" ++ natDigits (i + 1) ++ 46 :: domain]) permutations

/-- The output list the claim describes, read literally: prefix
candidates, then the suffix block, then www1..www10, then
mail1..mail10, then ftp1..ftp10. -/
def claimPermutations (domain : GoStr) : List GoStr :=
  pfxTbl.map (fun p => p ++ 46 :: domain) ++
  (if 2 ≤ (splitOnB 46 domain).length then
     (splitOnB 46 domain).headD [] |> fun baseDomain =>
       List.intercalate [46] (splitOnB 46 domain).tail |> fun tld =>
         sfxTbl.flatMap (fun sfx =>
           [baseDomain ++ 45 :: (sfx ++ 46 :: tld),
            baseDomain ++ sfx ++ 46 :: tld])
   else []) ++
  (List.range 10).map (fun i => strL "www" ++ natDigits (i + 1) ++ 46 :: domain) ++
  (List.range 10).map (fun i => strL "mail" ++ natDigits (i + 1) ++ 46 :: domain) ++
  (List.range 10).map (fun i => strL "ftp" ++ natDigits (i + 1) ++ 46 :: domain)

/-- The amended description of generatePermutations: as the claim,
except that the numbered variants are interleaved per number
(www i, mail i, ftp i for i = 1..10). -/
def amendedPermutations (domain : GoStr) : List GoStr :=
  pfxTbl.flatMap (fun p => [p ++ 46 :: domain]) ++
  (if 2 ≤ (splitOnB 46 domain).length then
     (splitOnB 46 domain).headD [] |> fun baseDomain =>
       List.intercalate [46] (splitOnB 46 domain).tail |> fun tld =>
         sfxTbl.flatMap (fun sfx =>
           [baseDomain ++ 45 :: (sfx ++ 46 :: tld),
            baseDomain ++ sfx ++ 46 :: tld])
   else []) ++
  (List.range 10).flatMap (fun i =>
    [strL "www" ++ natDigits (i + 1) ++ 46 :: domain,
     strL "mail" ++ natDigits (i + 1) ++ 46 :: domain,
     strL "ftp" ++ natDigits (i + 1) ++ 46 :: domain])

/-- Leftmost index of pat inside s, or none; models the search of an
anchored literal by Go regexp (leftmost match). -/
def findSub : GoStr → GoStr → Option Nat
  | pat, [] => if pat.isEmpty then some 0 else none
  | pat, c :: rest =>
    if pat.isPrefixOf (c :: rest) then some 0
    else (findSub pat rest).map (· + 1)

/-- The capture group of the first match of the Go regexp
titleRe = MustCompile with pattern (?is)<title>(.*?)</title>: the raw
text between the first case-insensitive occurrence of the opening tag
and the first closing tag after it (the lazy .*? takes the shortest
content, and leftmost-first search picks the first opening tag that
has a closing tag after it, which is the first opening tag whenever a
closing tag follows it). -/
def findTitleCapture (html : GoStr) : Option GoStr :=
  match findSub (strL "<title>") (lowerStr html) with
  | none => none
  | some i =>
    let rest := html.drop (i + 7)
    match findSub (strL "</title>") (lowerStr rest) with
    | none => none
    | some j => some (rest.take j)

/-- The cleanup pipeline applied to a captured title in probeHandler
(cmd/server/main.go lines 194-197) and extractTitle (part_005 lines
712-715): TrimSpace, ReplaceAll of newline and carriage return with a
space, then regexp collapse of whitespace runs. -/
def cleanTitle (t : GoStr) : GoStr :=
  collapseWS (replByte 13 32 (replByte 10 32 (trimSpaceGo t)))

/-- Truncation step of the title pipeline: titles longer than 100
bytes are cut to 100 bytes plus an ellipsis marker. -/
def formatTitle (t : GoStr) : GoStr :=
  let c := cleanTitle t
  if 100 < c.length then c.take 100 ++ strL "..." else c

/-- extractTitle from unnamed/part_005 lines 706-722; the identical
inline code sits in probeHandler of cmd/server/main.go lines
192-201. -/
def extractTitle (html : GoStr) : GoStr :=
  match findTitleCapture html with
  | none => strL "No title"
  | some t => formatTitle t

/-- The JSON body written by probeHandler: status, title, error. -/
structure ProbeResponse where
  status : GoStr
  title : GoStr
  error : GoStr
deriving DecidableEq

/-- The ways one probe request can go, as distinguished by the
branches of probeHandler in cmd/server/main.go lines 149-211:
url.Parse failure, http.NewRequest failure, client.Do failure,
body-read failure, or a response with a status code and a body. -/
inductive ProbeOutcome where
  | badURL (e : GoStr)
  | reqFail (e : GoStr)
  | connFail (e : GoStr)
  | readFail (e : GoStr)
  | ok (code : Nat) (body : GoStr)

/-- writeProbeError from cmd/server/main.go lines 213-221. -/
def writeProbeError (message e : GoStr) : ProbeResponse :=
  ⟨strL "0", strL "Connection failed", message ++ strL ": " ++ e⟩

/-- probeHandler from cmd/server/main.go lines 142-211, as a function
of the request outcome; every branch produces a structured response
(the handler is total: no fault propagates to the caller). -/
def probeHandler : ProbeOutcome → ProbeResponse
  | .badURL e => writeProbeError (strL "invalid URL") e
  | .reqFail e => writeProbeError (strL "failed to create request") e
  | .connFail e => writeProbeError (strL "connection failed") e
  | .readFail e => writeProbeError (strL "failed to read response") e
  | .ok code body => ⟨natDigits code, extractTitle body, []⟩

/-- An outcome that took one of the four error branches. -/
def isFailure : ProbeOutcome → Bool
  | .ok _ _ => false
  | _ => true

/-- Capture of hostRe = MustCompile over https?://([^/]+) when the
whole pattern matches at the head of s: at least one non-slash byte
after the scheme. -/
def matchHostAt (s : GoStr) : Option GoStr :=
  if startsWithB s (strL "https://") then
    let cap := (s.drop 8).takeWhile (fun b => b != 47)
    if cap.isEmpty then none else some cap
  else if startsWithB s (strL "http://") then
    let cap := (s.drop 7).takeWhile (fun b => b != 47)
    if cap.isEmpty then none else some cap
  else none

/-- Leftmost capture of hostRe in a line, as in
hostRe.FindStringSubmatch. -/
def findHost : GoStr → Option GoStr
  | [] => none
  | c :: rest =>
    match matchHostAt (c :: rest) with
    | some h => some h
    | none => findHost rest

/-- One line of the wayback producer loop (cmd/server/main.go lines
297-318) acting on the pair of the seen set and the emitted list:
extract a host, lowercase it, keep it iff it ends with a dot and the
target and was not seen before. -/
def waybackStep (target : GoStr) (st : List GoStr × List GoStr)
    (line : GoStr) : List GoStr × List GoStr :=
  match findHost line with
  | none => st
  | some m =>
    if endsWithB (lowerStr m) (46 :: target) && !(st.1.contains (lowerStr m)) then
      (lowerStr m :: st.1, st.2 ++ [lowerStr m])
    else st

/-- The hosts a wayback job emits as data events, in producer order
(cmd/server/main.go waybackStream). -/
def waybackEmitted (target : GoStr) (lines : List GoStr) : List GoStr :=
  (lines.foldl (waybackStep target) ([], [])).2

/-- The candidate host built from one crt.sh name (cmd/server/main.go
lines 408-409): TrimSpace, ToLower, then TrimPrefix of the wildcard
marker. -/
def crtshHost (name : GoStr) : GoStr :=
  if startsWithB (lowerStr (trimSpaceGo name)) (strL "*.") then
    (lowerStr (trimSpaceGo name)).drop 2
  else lowerStr (trimSpaceGo name)

/-- One name of the crt.sh producer loop (cmd/server/main.go lines
407-421): keep the candidate iff it suffix-matches the target,
differs from it and is unseen. -/
def crtshName (target : GoStr) (st : List GoStr × List GoStr)
    (name : GoStr) : List GoStr × List GoStr :=
  if endsWithB (crtshHost name) (46 :: target) && crtshHost name != target &&
      !(st.1.contains (crtshHost name)) then
    (crtshHost name :: st.1, st.2 ++ [crtshHost name])
  else st

/-- The hosts a crt.sh job emits as data events: each entry has its
name field split on newlines and every name processed in order
(cmd/server/main.go crtshStream lines 398-422). -/
def crtshEmitted (target : GoStr) (entries : List GoStr) : List GoStr :=
  (entries.foldl
    (fun st e => (splitOnB 10 e).foldl (crtshName target) st) ([], [])).2

/-- The hosts a permute job emits, given which candidate hostnames
resolve (cmd/server/main.go permuteStream lines 693-764); worker
interleaving only permutes the emission order, which the membership
claims do not depend on, so the workers are run in list order here. -/
def permuteEmitted (resolves : GoStr → Bool) (target : GoStr) : List GoStr :=
  ((generatePermutations target).foldl
    (fun st host =>
      if resolves host && !(st.1.contains host) then
        (st.1 ++ [host], st.2 ++ [host])
      else st)
    ([], [])).2

/-- One event of a server-sent stream: a data line carrying one
discovered host, or an event of kind complete carrying a payload
message. -/
inductive Ev where
  | data (h : GoStr)
  | complete (msg : GoStr)
deriving DecidableEq

/-- Is the event a plain data event. -/
def isData : Ev → Bool
  | .data _ => true
  | .complete _ => false

/-- Event stream of the canonical waybackStream (cmd/server/main.go
lines 276-333): the consumer relays each produced host as a data
event and returns on cancellation or when the producer ends; no
terminal event of any kind is written.  cancel gives the number of
loop iterations after which the cancellation signal is observed, none
when it never fires. -/
def mainWayback (target : GoStr) (lines : List GoStr) (seen : List GoStr)
    (cancel : Option Nat) : List Ev :=
  match lines with
  | [] => []
  | l :: rest =>
    if cancel == some 0 then []
    else
      let c2 := cancel.map (· - 1)
      match findHost l with
      | none => mainWayback target rest seen c2
      | some m =>
        let host := lowerStr m
        if endsWithB host (46 :: target) && !(seen.contains host) then
          Ev.data host :: mainWayback target rest (host :: seen) c2
        else mainWayback target rest seen c2

/-- Event stream of the canonical wayback job from its start. -/
def mainWaybackEvents (target : GoStr) (lines : List GoStr)
    (cancel : Option Nat) : List Ev :=
  mainWayback target lines [] cancel

/-- Fixed first part of the natural-completion payload of the
part_005 wayback stream. -/
def wbFixed : GoStr := strL "Wayback scan completed - found "

/-- Natural-completion payload of the part_005 wayback stream. -/
def wbDone (n : Nat) : GoStr := wbFixed ++ (natDigits n ++ strL " hosts")

/-- Cancellation payload of the part_005 wayback stream. -/
def wbCancel : GoStr := strL "Wayback scan cancelled"

/-- Event stream of waybackStream in unnamed/part_005 lines
1090-1127: data events for new suffix-matching hosts, a terminal
event of kind complete with a cancellation payload when the context
is observed cancelled at a loop iteration, and otherwise a terminal
event of kind complete carrying the count of found hosts. -/
def p5Wayback (target : GoStr) (lines : List GoStr) (seen : List GoStr)
    (cancel : Option Nat) : List Ev :=
  match lines with
  | [] => [Ev.complete (wbDone seen.length)]
  | l :: rest =>
    if cancel == some 0 then [Ev.complete wbCancel]
    else
      let c2 := cancel.map (· - 1)
      match findHost l with
      | none => p5Wayback target rest seen c2
      | some m =>
        let host := lowerStr m
        if endsWithB host (46 :: target) && !(seen.contains host) then
          Ev.data host :: p5Wayback target rest (host :: seen) c2
        else p5Wayback target rest seen c2

/-- Event stream of the part_005 wayback job from its start. -/
def p5WaybackEvents (target : GoStr) (lines : List GoStr)
    (cancel : Option Nat) : List Ev :=
  p5Wayback target lines [] cancel

/-- Lookup in the jobs map (cmd/server/main.go line 26), modelled as
an association list keyed by the job key string; values are abstract
cancellation-handle identifiers. -/
def lookupJob (jobs : List (GoStr × Nat)) (key : GoStr) : Option Nat :=
  match jobs.find? (fun p => p.1 == key) with
  | some p => some p.2
  | none => none

/-- The registration step every stream handler runs under jobsMu
(cmd/server/main.go lines 262-267): under the lock, the existing
cancellation handle for the key, when present, is invoked, then the
new handle is installed.  The whole step is one atomic transition;
the first component is the handle that was invoked. -/
def registerJob (jobs : List (GoStr × Nat)) (key : GoStr) (c : Nat) :
    Option Nat × List (GoStr × Nat) :=
  (lookupJob jobs key, (key, c) :: jobs.filter (fun p => !(p.1 == key)))

/-- Job keys are target underscore source (cmd/server/main.go line
260 and friends). -/
def jobKey (target source : GoStr) : GoStr := target ++ 95 :: source

/-- abortHandler from cmd/server/main.go lines 223-241: under jobsMu,
every job whose key CONTAINS the supplied target as a substring is
cancelled and deleted, and the number of cancelled jobs is counted
(and logged).  Returns the count and the remaining jobs map. -/
def abortHandler (target : GoStr) (jobs : List (GoStr × Nat)) :
    Nat × List (GoStr × Nat) :=
  ((jobs.filter (fun p => containsB p.1 target)).length,
   jobs.filter (fun p => !(containsB p.1 target)))

/-- Events of the part_005 zone-transfer stream. -/
inductive ZEv where
  | statusLine (ns : GoStr)
  | errLine (ns : GoStr)
  | result (ns : GoStr)
  | complete (count : Nat)
deriving DecidableEq

/-- zoneTransferStream in unnamed/part_005 lines 1520-1562: per
nameserver a status data line; on TCP connect failure an error data
line; on success the nameserver is emitted once as a pseudo-result
(per-job seen set); the completion event counts ALL looked-up
nameservers, reachable or not. -/
def p5Zone (reach : GoStr → Bool) (total : Nat) :
    List GoStr → List GoStr → List ZEv
  | [], _ => [ZEv.complete total]
  | ns :: rest, seen =>
    ZEv.statusLine ns ::
      (if reach ns then
        (if seen.contains ns then p5Zone reach total rest seen
         else ZEv.result ns :: p5Zone reach total rest (ns :: seen))
       else ZEv.errLine ns :: p5Zone reach total rest seen)

/-- Event stream of the part_005 zone job from its start. -/
def p5ZoneEvents (nsHosts : List GoStr) (reach : GoStr → Bool) : List ZEv :=
  p5Zone reach nsHosts.length nsHosts []

/-- The pseudo-results carried by a zone event stream. -/
def zResults (evs : List ZEv) : List GoStr :=
  evs.filterMap (fun e =>
    match e with
    | ZEv.result ns => some ns
    | _ => none)

/-- Data events sent by the producer goroutine of the canonical
zoneTransferStream (cmd/server/main.go lines 813-850): the loop dials
each nameserver on port 53 and logs the outcome, but contains no send
on resultCh in either branch, so the channel the consumer loop at
line 853 drains stays empty whatever the reachability. -/
def mainZoneEmitted (nsHosts : List GoStr) (reach : GoStr → Bool) :
    List GoStr :=
  nsHosts.foldl (fun acc ns => if reach ns then acc else acc) []

/-- The count printed by the completion log line of the canonical
zoneTransferStream (line 849): the number of looked-up nameservers,
reachable or not. -/
def mainZoneLogCount (nsHosts : List GoStr) : Nat := nsHosts.length

/-- The emitted-host invariant of claim C1: a strict subdomain of the
target (ends with a dot and the target, hence differs from it) with
no uppercase ASCII byte. -/
def goodHost (target h : GoStr) : Prop :=
  (46 :: target) <:+ h ∧ h ≠ target ∧ ∀ b ∈ h, ¬(65 ≤ b ∧ b ≤ 90)

/-- Nameserver list of the zone-transfer scenario: two reachable, one
not. -/
def zoneNsList : List GoStr :=
  [strL "ns1.example.com", strL "ns2.example.com", strL "ns3.example.com"]

/-- Reachability of the zone-transfer scenario: the TCP handshake on
port 53 succeeds for the first two nameservers only. -/
def zoneReach : GoStr → Bool :=
  fun h => h == strL "ns1.example.com" || h == strL "ns2.example.com"

/-- Number of terminal (complete) events in a stream. -/
def completeCount (evs : List Ev) : Nat :=
  (evs.filter (fun e => !(isData e))).length

/-- Number of data events in a stream. -/
def dataCount (evs : List Ev) : Nat :=
  (evs.filter (fun e => isData e)).length

/-- Fixed first part of the natural-completion payload of the
part_005 dns stream. -/
def dnsFixed : GoStr := strL "DNS brute force scan completed - found "

/-- Natural-completion payload of the part_005 dns stream (line
1303). -/
def dnsDone (n : Nat) : GoStr := dnsFixed ++ (natDigits n ++ strL " hosts")

/-- Cancellation payload of the part_005 dns stream (lines 1255 and
1307). -/
def dnsCancel : GoStr := strL "DNS brute force scan cancelled"

/-- The terminal events the dnsStream HANDLER of unnamed/part_005
(lines 1221-1310) writes on one request, per control path: when the
spawn loop observes cancellation at iteration cancelInLoop before the
wordlist of length subsLen is exhausted, it writes the cancellation
terminal and returns (line 1255); otherwise the final select writes
the completion terminal with the seen-count when the workers finish
first (line 1303) and the cancellation terminal when the deadline
fires first (line 1307).  Every path writes exactly one terminal
event. -/
def p5DnsTerminalWrites (subsLen : Nat) (cancelInLoop : Option Nat)
    (doneFirst : Bool) (count : Nat) : List Ev :=
  match cancelInLoop with
  | some i =>
    if i < subsLen then [Ev.complete dnsCancel]
    else if doneFirst then [Ev.complete (dnsDone count)]
    else [Ev.complete dnsCancel]
  | none =>
    if doneFirst then [Ev.complete (dnsDone count)]
    else [Ev.complete dnsCancel]

/-- The event stream of a NATURALLY completed part_005 dns job whose
workers emitted the (distinct) hosts in some completion order: the
done branch of the select runs only after wg.Wait, i.e. after every
worker has finished, and each data write is paired under the mutex
with an insertion into seen, so all data lines precede the terminal
and the final seen-count equals the number of data lines. -/
def p5DnsEventsNatural (hosts : List GoStr) : List Ev :=
  hosts.map Ev.data ++ [Ev.complete (dnsDone hosts.length)]

/-- The event stream of a CANCELLED part_005 dns job: the handler
writes the cancellation terminal (line 1255 or 1307) without joining
the worker goroutines, so workers that are still running can write
further data lines after it; pre and post are the hosts written
before and after the terminal. -/
def p5DnsEventsCancelled (pre post : List GoStr) : List Ev :=
  pre.map Ev.data ++ [Ev.complete dnsCancel] ++ post.map Ev.data

theorem foldl_append_bind {α β : Type} (l : List α) (f : α → List β)
    (init : List β) :
    l.foldl (fun acc x => acc ++ f x) init = init ++ l.flatMap f := by
  induction l generalizing init with
  | nil => simp
  | cons a l ih => simp [ih, List.append_assoc]

/-- C9 amended: generatePermutations returns the prefix candidates,
then (for domains of at least two labels) the hyphenated and
concatenated suffix forms per suffix, then the numbered variants
interleaved per number: www i, mail i, ftp i for i = 1 to 10. -/
theorem generatePermutations_characterization (domain : GoStr) :
    generatePermutations domain = amendedPermutations domain := by
  unfold generatePermutations amendedPermutations
  by_cases h : 2 ≤ (splitOnB 46 domain).length <;>
    simp [h, foldl_append_bind, List.append_assoc]

/-- C9 counterexample: the claimed ordering (www1..www10 before
mail1..mail10 before ftp1..ftp10) does not match the code, which
interleaves the numbered variants: entry 35 for example.com is
mail1.example.com, while the claimed ordering puts www2.example.com
there. -/
theorem generatePermutations_order_counterexample :
    generatePermutations (strL "example.com") ≠
      claimPermutations (strL "example.com") ∧
    (generatePermutations (strL "example.com"))[35]? =
      some (strL "mail1.example.com") ∧
    (claimPermutations (strL "example.com"))[35]? =
      some (strL "www2.example.com") := by
  refine ⟨by decide, by decide, by decide⟩

theorem containsB_iff (s sub : GoStr) : containsB s sub = true ↔ sub <:+: s := by
  induction s with
  | nil =>
    simp only [containsB, List.isEmpty_iff]
    constructor
    · rintro rfl; exact List.nil_infix
    · intro h; exact List.eq_nil_of_infix_nil h
  | cons c rest ih =>
    simp [containsB, List.infix_cons_iff, List.isPrefixOf_iff_prefix, ih]

theorem length_filter_split {α : Type} (p : α → Bool) (l : List α) :
    (l.filter p).length + (l.filter (fun a => !(p a))).length = l.length := by
  induction l with
  | nil => rfl
  | cons a l ih => cases h : p a <;> simp [List.filter_cons, h] <;> omega

theorem containsB_nil_right (s : GoStr) : containsB s [] = true :=
  (containsB_iff s []).mpr List.nil_infix

theorem infix_jobKey {target t2 : GoStr} (src : GoStr)
    (h : target <:+: t2) : containsB (jobKey t2 src) target = true := by
  rw [containsB_iff]
  exact h.trans (List.prefix_append t2 (95 :: src)).isInfix

/-- C7: a certificate-log job over example.com whose upstream returns
the two entries with name values a.example.com newline b.example.com
and a.example.com emits exactly the two hosts a.example.com and
b.example.com, in that order, not three emissions. -/
theorem crtsh_two_entries_scenario :
    crtshEmitted (strL "example.com")
        [strL "a.example.com\nb.example.com", strL "a.example.com"] =
      [strL "a.example.com", strL "b.example.com"] := by
  decide

/-- C8: with nameservers ns1, ns2, ns3 of which ns1 and ns2 accept
the TCP handshake and ns3 does not, the canonical server
(cmd/server/main.go) emits NO pseudo-result at all because its
producer goroutine never sends on the result channel, while the
part_005 variant emits exactly the 2 reachable nameservers as
pseudo-results; the completion count in both variants is the number
of all looked-up nameservers, 3. -/
theorem zone_scenario_divergence :
    mainZoneEmitted zoneNsList zoneReach = [] ∧
    zResults (p5ZoneEvents zoneNsList zoneReach) =
      [strL "ns1.example.com", strL "ns2.example.com"] ∧
    (zResults (p5ZoneEvents zoneNsList zoneReach)).length = 2 ∧
    (p5ZoneEvents zoneNsList zoneReach).getLast? = some (ZEv.complete 3) ∧
    mainZoneLogCount zoneNsList = 3 := by
  refine ⟨by decide, by decide, by decide, by decide, by decide⟩

theorem ne_nil_of_head_append (m x e : GoStr) (h : m ≠ []) :
    m ++ x ++ e ≠ [] := by
  cases m with
  | nil => exact absurd rfl h
  | cons a l => simp

/-- C5: the probe handler is total over its outcome cases; every
failure branch yields status zero, the Connection failed title and a
non-empty error string, and the success branch yields an empty error
string. -/
theorem probe_failure_structured (o : ProbeOutcome) :
    (isFailure o = true →
      (probeHandler o).status = strL "0" ∧ (probeHandler o).error ≠ []) ∧
    (isFailure o = false → (probeHandler o).error = []) := by
  cases o with
  | badURL e =>
    exact ⟨fun _ => ⟨rfl, ne_nil_of_head_append _ _ _ (by decide)⟩,
           fun h => by simp [isFailure] at h⟩
  | reqFail e =>
    exact ⟨fun _ => ⟨rfl, ne_nil_of_head_append _ _ _ (by decide)⟩,
           fun h => by simp [isFailure] at h⟩
  | connFail e =>
    exact ⟨fun _ => ⟨rfl, ne_nil_of_head_append _ _ _ (by decide)⟩,
           fun h => by simp [isFailure] at h⟩
  | readFail e =>
    exact ⟨fun _ => ⟨rfl, ne_nil_of_head_append _ _ _ (by decide)⟩,
           fun h => by simp [isFailure] at h⟩
  | ok code body =>
    exact ⟨fun h => by simp [isFailure] at h, fun _ => rfl⟩

/-- C5 witness at a concrete failed probe and a concrete successful
probe. -/
theorem probe_failure_structured_witness :
    ((probeHandler (ProbeOutcome.connFail (strL "no such host"))).status =
        strL "0" ∧
      (probeHandler (ProbeOutcome.connFail (strL "no such host"))).error ≠ []) ∧
    (probeHandler (ProbeOutcome.ok 200 (strL "<title>hi</title>"))).error = [] :=
  ⟨(probe_failure_structured (ProbeOutcome.connFail (strL "no such host"))).1
      (by decide),
   (probe_failure_structured (ProbeOutcome.ok 200 (strL "<title>hi</title>"))).2
      (by decide)⟩

/-- C3 counterexample: aborting example.com cancels and removes the
job registered for the different target sub.example.com, because the
handler matches by substring containment of the key, so the abort
operation does not cancel exactly the jobs whose target equals the
supplied one. -/
theorem abort_cancels_other_target_job :
    abortHandler (strL "example.com")
        [(jobKey (strL "sub.example.com") (strL "wayback"), 7)] = (1, []) ∧
    strL "sub.example.com" ≠ strL "example.com" := by
  refine ⟨by decide, by decide⟩

/-- C3 amended: the abort operation cancels and removes exactly the
jobs whose KEY contains the supplied target as a substring; this
includes every job whose target contains the supplied target (in
particular every job whose target equals it), and the count of
cancelled jobs is the number of removed entries. -/
theorem abort_cancels_substring_matches (target : GoStr)
    (jobs : List (GoStr × Nat)) :
    (abortHandler target jobs).1 + (abortHandler target jobs).2.length =
      jobs.length ∧
    (∀ p, p ∈ (abortHandler target jobs).2 ↔
      p ∈ jobs ∧ ¬(target <:+: p.1)) ∧
    (∀ t2 src c, (jobKey t2 src, c) ∈ jobs → target <:+: t2 →
      (jobKey t2 src, c) ∉ (abortHandler target jobs).2) := by
  refine ⟨length_filter_split _ _, ?_, ?_⟩
  · intro p
    simp only [abortHandler, List.mem_filter, Bool.not_eq_eq_eq_not,
      Bool.not_true, and_congr_right_iff]
    intro _
    rw [← containsB_iff]
    simp
  · intro t2 src c hmem hinf hin
    rw [abortHandler] at hin
    simp only [List.mem_filter] at hin
    have := infix_jobKey src hinf
    simp [this] at hin

/-- C3 amended witness: a job registered for target example.com is
cancelled by an abort for example.com, and the bookkeeping adds up. -/
theorem abort_cancels_substring_matches_witness :
    (jobKey (strL "example.com") (strL "crtsh"), 3) ∉
      (abortHandler (strL "example.com")
        [(jobKey (strL "example.com") (strL "crtsh"), 3)]).2 :=
  (abort_cancels_substring_matches (strL "example.com")
      [(jobKey (strL "example.com") (strL "crtsh"), 3)]).2.2
    (strL "example.com") (strL "crtsh") 3 (by decide) (List.infix_refl _)

/-- C10: aborting with an empty (or missing) target parameter cancels
and removes every registered job, because the empty string is a
substring of every key; and in general any job whose key contains the
supplied target as a substring is cancelled and removed, for instance
a job for sub.example.com when aborting example.com. -/
theorem abort_empty_target_cancels_all (jobs : List (GoStr × Nat))
    (target k : GoStr) (c : Nat) :
    (abortHandler (strL "") jobs).2 = [] ∧
    (abortHandler (strL "") jobs).1 = jobs.length ∧
    ((k, c) ∈ jobs → target <:+: k → (k, c) ∉ (abortHandler target jobs).2) := by
  refine ⟨?_, ?_, ?_⟩
  · have h : (strL "") = ([] : GoStr) := rfl
    rw [abortHandler, h]
    simp [containsB_nil_right]
  · have h : (strL "") = ([] : GoStr) := rfl
    rw [abortHandler, h]
    simp [containsB_nil_right]
  · intro hmem hinf hin
    rw [abortHandler] at hin
    simp only [List.mem_filter] at hin
    have hc := (containsB_iff k target).mpr hinf
    simp [hc] at hin

/-- C10 witness: aborting example.com removes the job keyed
sub.example.com underscore wayback, whose key contains example.com. -/
theorem abort_empty_target_cancels_all_witness :
    (jobKey (strL "sub.example.com") (strL "wayback"), 5) ∉
      (abortHandler (strL "example.com")
        [(jobKey (strL "sub.example.com") (strL "wayback"), 5)]).2 :=
  (abort_empty_target_cancels_all
      [(jobKey (strL "sub.example.com") (strL "wayback"), 5)]
      (strL "example.com") (jobKey (strL "sub.example.com") (strL "wayback"))
      5).2.2 (by decide) ⟨strL "sub.", strL "_wayback", by decide⟩

theorem find?_filter_ne (jobs : List (GoStr × Nat)) (k key : GoStr)
    (h : k ≠ key) :
    (jobs.filter (fun p => !(p.1 == key))).find? (fun p => p.1 == k) =
      jobs.find? (fun p => p.1 == k) := by
  induction jobs with
  | nil => rfl
  | cons a l ih =>
    by_cases hk : a.1 = key
    · have h1 : (a.1 == key) = true := beq_iff_eq.mpr hk
      have h2 : (a.1 == k) = false := by
        rw [beq_eq_false_iff_ne]
        intro he; exact h (he ▸ hk ▸ rfl)
      simp [List.filter_cons, List.find?_cons, h1, h2, ih]
    · have h1 : (a.1 == key) = false := beq_eq_false_iff_ne.mpr hk
      cases h2 : a.1 == k with
      | true => simp [List.filter_cons, List.find?_cons, h1, h2]
      | false => simp [List.filter_cons, List.find?_cons, h1, h2, ih]

theorem mainWayback_all_data (target : GoStr) (lines : List GoStr) :
    ∀ (seen : List GoStr) (cancel : Option Nat),
      ∀ e ∈ mainWayback target lines seen cancel, isData e = true := by
  induction lines with
  | nil => intro seen cancel e he; simp [mainWayback] at he
  | cons l rest ih =>
    intro seen cancel e he
    rw [mainWayback] at he
    by_cases hc : (cancel == some 0) = true
    · simp [hc] at he
    · rw [if_neg hc] at he
      cases hf : findHost l with
      | none =>
        rw [hf] at he
        exact ih _ _ e he
      | some m =>
        rw [hf] at he
        simp only at he
        by_cases hb : (endsWithB (lowerStr m) (46 :: target) &&
            !(seen.contains (lowerStr m))) = true
        · rw [if_pos hb] at he
          rcases List.mem_cons.mp he with rfl | hmem
          · rfl
          · exact ih _ _ e hmem
        · rw [if_neg hb] at he
          exact ih _ _ e he

/-- C2 counterexample: a second wayback request for example.com
supersedes the registered job (handle 1 is invoked), but the
superseded client of the canonical server observes NO cancellation
terminal event: once its context is cancelled the consumer loop
returns without writing anything, here before relaying any event at
all. -/
theorem superseded_stream_no_cancel_event :
    (registerJob [(jobKey (strL "example.com") (strL "wayback"), 1)]
        (jobKey (strL "example.com") (strL "wayback")) 2).1 = some 1 ∧
    mainWaybackEvents (strL "example.com") [strL "http://a.example.com/x"]
        (some 0) = [] := by
  refine ⟨by decide, by decide⟩

/-- C2 amended: registration under the jobs mutex invokes the
existing cancellation handle of the key, when present, and installs
the new one, in one atomic transition that leaves other keys
untouched; the superseded stream of the canonical server emits data
events only, so its client observes no terminal event of any kind
(neither a cancellation nor a natural-completion event), the
connection simply ends. -/
theorem register_supersedes_atomically (jobs : List (GoStr × Nat))
    (key : GoStr) (c : Nat) (target : GoStr) (lines : List GoStr)
    (cancel : Option Nat) :
    (registerJob jobs key c).1 = lookupJob jobs key ∧
    lookupJob (registerJob jobs key c).2 key = some c ∧
    (∀ k, k ≠ key → lookupJob (registerJob jobs key c).2 k = lookupJob jobs k) ∧
    (∀ e ∈ mainWaybackEvents target lines cancel, isData e = true) := by
  refine ⟨rfl, ?_, ?_, ?_⟩
  · simp [registerJob, lookupJob, List.find?_cons]
  · intro k hk
    have h2 : (key == k) = false := by
      rw [beq_eq_false_iff_ne]; exact fun he => hk he.symm
    simp only [registerJob, lookupJob, List.find?_cons, h2]
    rw [find?_filter_ne jobs k key hk]
  · exact mainWayback_all_data target lines [] cancel

/-- C2 amended witness: registering over an existing key leaves an
unrelated key alone, and the one data event of a concrete canonical
stream is a data event. -/
theorem register_supersedes_atomically_witness :
    lookupJob (registerJob [(jobKey (strL "example.com") (strL "wayback"), 1)]
        (jobKey (strL "example.com") (strL "wayback")) 2).2 (strL "other") =
      lookupJob [(jobKey (strL "example.com") (strL "wayback"), 1)]
        (strL "other") ∧
    isData (Ev.data (strL "a.example.com")) = true :=
  ⟨(register_supersedes_atomically
      [(jobKey (strL "example.com") (strL "wayback"), 1)]
      (jobKey (strL "example.com") (strL "wayback")) 2 (strL "example.com")
      [strL "http://a.example.com/x"] none).2.2.1 (strL "other") (by decide),
   (register_supersedes_atomically
      [(jobKey (strL "example.com") (strL "wayback"), 1)]
      (jobKey (strL "example.com") (strL "wayback")) 2 (strL "example.com")
      [strL "http://a.example.com/x"] none).2.2.2
     (Ev.data (strL "a.example.com")) (by decide)⟩

theorem lower_no_upper (s : GoStr) : ∀ b ∈ lowerStr s, ¬(65 ≤ b ∧ b ≤ 90) := by
  intro b hb
  simp only [lowerStr, List.mem_map] at hb
  obtain ⟨a, _, rfl⟩ := hb
  by_cases h : 65 ≤ a ∧ a ≤ 90
  · simp only [asciiLower, if_pos h]
    omega
  · simp only [asciiLower, if_neg h]
    exact h

theorem suffix_ne {target h : GoStr} (hs : (46 :: target) <:+ h) : h ≠ target := by
  intro he
  have hl := hs.length_le
  rw [he] at hl
  simp at hl

theorem crtshHost_no_upper (name : GoStr) :
    ∀ b ∈ crtshHost name, ¬(65 ≤ b ∧ b ≤ 90) := by
  intro b hb
  unfold crtshHost at hb
  by_cases h : startsWithB (lowerStr (trimSpaceGo name)) (strL "*.") = true
  · rw [if_pos h] at hb
    exact lower_no_upper (trimSpaceGo name) b (List.mem_of_mem_drop hb)
  · rw [if_neg h] at hb
    exact lower_no_upper (trimSpaceGo name) b hb

theorem foldl_inv {σ α : Type} (inv : σ → Prop) (f : σ → α → σ)
    (hf : ∀ s a, inv s → inv (f s a)) :
    ∀ (l : List α) (s : σ), inv s → inv (l.foldl f s) := by
  intro l
  induction l with
  | nil => exact fun s h => h
  | cons a t ih => exact fun s h => ih (f s a) (hf s a h)

theorem not_mem_of_contains_false {l : List GoStr} {x : GoStr}
    (h : (!(l.contains x)) = true) : x ∉ l := by
  intro hmem
  simp at h
  exact h hmem

theorem waybackStep_inv (target : GoStr) (st : List GoStr × List GoStr)
    (line : GoStr)
    (hinv : (∀ x ∈ st.2, x ∈ st.1) ∧ st.2.Nodup ∧
      ∀ x ∈ st.2, goodHost target x) :
    (∀ x ∈ (waybackStep target st line).2, x ∈ (waybackStep target st line).1) ∧
      (waybackStep target st line).2.Nodup ∧
      ∀ x ∈ (waybackStep target st line).2, goodHost target x := by
  obtain ⟨h1, h2, h3⟩ := hinv
  unfold waybackStep
  cases hf : findHost line with
  | none => exact ⟨h1, h2, h3⟩
  | some m =>
    dsimp only
    by_cases hb : (endsWithB (lowerStr m) (46 :: target) &&
        !(st.1.contains (lowerStr m))) = true
    · rw [if_pos hb]
      rw [Bool.and_eq_true] at hb
      obtain ⟨hsuf, hseen⟩ := hb
      have hsuf2 : (46 :: target) <:+ lowerStr m :=
        List.isSuffixOf_iff_suffix.mp hsuf
      have hnotin : lowerStr m ∉ st.1 := not_mem_of_contains_false hseen
      refine ⟨?_, ?_, ?_⟩
      · intro x hx
        rcases List.mem_append.mp hx with hx2 | hx2
        · exact List.mem_cons_of_mem _ (h1 x hx2)
        · simp only [List.mem_singleton] at hx2
          subst hx2
          exact List.mem_cons_self _ _
      · rw [List.nodup_append]
        refine ⟨h2, List.nodup_singleton _, ?_⟩
        intro x hx hx2
        simp only [List.mem_singleton] at hx2
        subst hx2
        exact hnotin (h1 _ hx)
      · intro x hx
        rcases List.mem_append.mp hx with hx2 | hx2
        · exact h3 x hx2
        · simp only [List.mem_singleton] at hx2
          subst hx2
          exact ⟨hsuf2, suffix_ne hsuf2, lower_no_upper m⟩
    · rw [if_neg hb]
      exact ⟨h1, h2, h3⟩

theorem crtshName_inv (target : GoStr) (st : List GoStr × List GoStr)
    (name : GoStr)
    (hinv : (∀ x ∈ st.2, x ∈ st.1) ∧ st.2.Nodup ∧
      ∀ x ∈ st.2, goodHost target x) :
    (∀ x ∈ (crtshName target st name).2, x ∈ (crtshName target st name).1) ∧
      (crtshName target st name).2.Nodup ∧
      ∀ x ∈ (crtshName target st name).2, goodHost target x := by
  obtain ⟨h1, h2, h3⟩ := hinv
  unfold crtshName
  by_cases hb : (endsWithB (crtshHost name) (46 :: target) &&
      crtshHost name != target && !(st.1.contains (crtshHost name))) = true
  · rw [if_pos hb]
    rw [Bool.and_eq_true, Bool.and_eq_true] at hb
    obtain ⟨⟨hsuf, _⟩, hseen⟩ := hb
    have hsuf2 : (46 :: target) <:+ crtshHost name :=
      List.isSuffixOf_iff_suffix.mp hsuf
    have hnotin : crtshHost name ∉ st.1 := not_mem_of_contains_false hseen
    refine ⟨?_, ?_, ?_⟩
    · intro x hx
      rcases List.mem_append.mp hx with hx2 | hx2
      · exact List.mem_cons_of_mem _ (h1 x hx2)
      · simp only [List.mem_singleton] at hx2
        subst hx2
        exact List.mem_cons_self _ _
    · rw [List.nodup_append]
      refine ⟨h2, List.nodup_singleton _, ?_⟩
      intro x hx hx2
      simp only [List.mem_singleton] at hx2
      subst hx2
      exact hnotin (h1 _ hx)
    · intro x hx
      rcases List.mem_append.mp hx with hx2 | hx2
      · exact h3 x hx2
      · simp only [List.mem_singleton] at hx2
        subst hx2
        exact ⟨hsuf2, suffix_ne hsuf2, crtshHost_no_upper name⟩
  · rw [if_neg hb]
    exact ⟨h1, h2, h3⟩

/-- C1 amended: for the wayback and crt.sh sources (the two the claim
cites), every hostname emitted as a data event is a strict subdomain
of the target (it ends with a dot and the target and never equals the
target), carries no uppercase ASCII byte, and is emitted at most once
over the lifetime of the job (the per-job seen set gates emission). -/
theorem wayback_crtsh_emitted_invariant (target : GoStr)
    (lines entries : List GoStr) :
    (waybackEmitted target lines).Nodup ∧
    (crtshEmitted target entries).Nodup ∧
    (∀ h, h ∈ waybackEmitted target lines → goodHost target h) ∧
    (∀ h, h ∈ crtshEmitted target entries → goodHost target h) := by
  have hinit : (∀ x ∈ (([], []) : List GoStr × List GoStr).2,
      x ∈ (([], []) : List GoStr × List GoStr).1) ∧
      (([], []) : List GoStr × List GoStr).2.Nodup ∧
      ∀ x ∈ (([], []) : List GoStr × List GoStr).2, goodHost target x := by
    simp
  have hw := foldl_inv
    (fun st : List GoStr × List GoStr =>
      (∀ x ∈ st.2, x ∈ st.1) ∧ st.2.Nodup ∧ ∀ x ∈ st.2, goodHost target x)
    (waybackStep target)
    (fun s a h => waybackStep_inv target s a h) lines ([], []) hinit
  have hc := foldl_inv
    (fun st : List GoStr × List GoStr =>
      (∀ x ∈ st.2, x ∈ st.1) ∧ st.2.Nodup ∧ ∀ x ∈ st.2, goodHost target x)
    (fun st e => (splitOnB 10 e).foldl (crtshName target) st)
    (fun s e h => foldl_inv _ (crtshName target)
      (fun s2 n h2 => crtshName_inv target s2 n h2) (splitOnB 10 e) s h)
    entries ([], []) hinit
  exact ⟨hw.2.1, hc.2.1, fun h hm => hw.2.2 h hm, fun h hm => hc.2.2 h hm⟩

/-- C1 amended witness: concrete wayback and crt.sh emissions satisfy
the invariant; the wayback host comes out lowercased from an
uppercase archive line, the crt.sh host from a wildcard entry. -/
theorem wayback_crtsh_emitted_invariant_witness :
    goodHost (strL "example.com") (strL "a.example.com") ∧
    goodHost (strL "example.com") (strL "b.example.com") :=
  ⟨(wayback_crtsh_emitted_invariant (strL "example.com")
      [strL "http://A.example.com/x"] []).2.2.1 (strL "a.example.com")
      (by decide),
   (wayback_crtsh_emitted_invariant (strL "example.com") []
      [strL "*.B.example.com"]).2.2.2 (strL "b.example.com") (by decide)⟩

/-- C1 counterexample: a permutation job for example.com whose only
resolving candidate is the suffix permutation example-dev.com emits
that hostname, which is not a strict subdomain of the target (it does
not end with a dot and the target), so the claimed invariant fails
for the permute source. -/
theorem permute_emits_non_subdomain :
    permuteEmitted (fun h => h == strL "example-dev.com")
        (strL "example.com") = [strL "example-dev.com"] ∧
    ¬ goodHost (strL "example.com") (strL "example-dev.com") :=
  ⟨by decide,
   fun hg => absurd (List.isSuffixOf_iff_suffix.mpr hg.1) (by decide)⟩

theorem p5Wayback_shape (target : GoStr) (lines : List GoStr) :
    ∀ (seen : List GoStr) (cancel : Option Nat),
      ∃ pre msg, p5Wayback target lines seen cancel = pre ++ [Ev.complete msg] ∧
        ∀ e ∈ pre, isData e = true := by
  induction lines with
  | nil =>
    intro seen cancel
    exact ⟨[], wbDone seen.length, rfl, by simp⟩
  | cons l rest ih =>
    intro seen cancel
    rw [p5Wayback]
    by_cases hc : (cancel == some 0) = true
    · rw [if_pos hc]
      exact ⟨[], wbCancel, rfl, by simp⟩
    · rw [if_neg hc]
      cases hf : findHost l with
      | none =>
        dsimp only
        exact ih seen (Option.map (fun x => x - 1) cancel)
      | some m =>
        dsimp only
        by_cases hb : (endsWithB (lowerStr m) (46 :: target) &&
            !(seen.contains (lowerStr m))) = true
        · rw [if_pos hb]
          obtain ⟨pre, msg, heq, hd⟩ :=
            ih (lowerStr m :: seen) (Option.map (fun x => x - 1) cancel)
          refine ⟨Ev.data (lowerStr m) :: pre, msg, by simp [heq], ?_⟩
          intro e he
          rcases List.mem_cons.mp he with rfl | hmem
          · rfl
          · exact hd e hmem
        · rw [if_neg hb]
          exact ih seen (Option.map (fun x => x - 1) cancel)

theorem p5Wayback_natural (target : GoStr) (lines : List GoStr) :
    ∀ seen : List GoStr, ∃ hosts : List GoStr,
      p5Wayback target lines seen none =
        hosts.map Ev.data ++
          [Ev.complete (wbDone (seen.length + hosts.length))] := by
  induction lines with
  | nil =>
    intro seen
    exact ⟨[], by simp [p5Wayback]⟩
  | cons l rest ih =>
    intro seen
    rw [p5Wayback]
    rw [if_neg (by decide)]
    cases hf : findHost l with
    | none =>
      dsimp only
      simp only [Option.map_none']
      exact ih seen
    | some m =>
      dsimp only
      simp only [Option.map_none']
      by_cases hb : (endsWithB (lowerStr m) (46 :: target) &&
          !(seen.contains (lowerStr m))) = true
      · rw [if_pos hb]
        obtain ⟨hosts, heq⟩ := ih (lowerStr m :: seen)
        refine ⟨lowerStr m :: hosts, ?_⟩
        rw [heq]
        have harith : (lowerStr m :: seen).length + hosts.length =
            seen.length + (lowerStr m :: hosts).length := by
          simp only [List.length_cons]
          omega
        rw [harith]
        simp
      · rw [if_neg hb]
        exact ih seen

theorem p5Wayback_cancelled (target : GoStr) (lines : List GoStr) :
    ∀ (i : Nat) (seen : List GoStr), i < lines.length →
      ∃ pre, p5Wayback target lines seen (some i) =
        pre ++ [Ev.complete wbCancel] := by
  induction lines with
  | nil =>
    intro i seen hi
    simp at hi
  | cons l rest ih =>
    intro i seen hi
    rw [p5Wayback]
    cases i with
    | zero =>
      rw [if_pos (by decide)]
      exact ⟨[], rfl⟩
    | succ j =>
      rw [if_neg (by simp)]
      have hj : j < rest.length := by
        simp only [List.length_cons] at hi
        omega
      have hmap : (Option.map (fun x => x - 1) (some (j + 1))) = some j := by
        simp
      cases hf : findHost l with
      | none =>
        dsimp only
        rw [hmap]
        exact ih j seen hj
      | some m =>
        dsimp only
        rw [hmap]
        by_cases hb : (endsWithB (lowerStr m) (46 :: target) &&
            !(seen.contains (lowerStr m))) = true
        · rw [if_pos hb]
          obtain ⟨pre, heq⟩ := ih j (lowerStr m :: seen) hj
          exact ⟨Ev.data (lowerStr m) :: pre, by simp [heq]⟩
        · rw [if_neg hb]
          exact ih j seen hj

theorem wbCancel_ne_wbDone (n : Nat) : wbCancel ≠ wbDone n := by
  intro h
  have h14 := congrArg (fun l : GoStr => l[14]?) h
  simp only [wbDone] at h14
  rw [List.getElem?_append] at h14
  rw [if_pos (by decide : (14 : Nat) < wbFixed.length)] at h14
  exact absurd h14 (by decide)

theorem getLast?_append_of_ne_nil {α : Type} (u x : List α) (hx : x ≠ []) :
    (u ++ x).getLast? = x.getLast? := by
  rw [List.getLast?_append]
  cases hl : x.getLast? with
  | none => exact absurd (List.getLast?_eq_none_iff.mp hl) hx
  | some v => rfl

theorem filter_not_isData_map_data (hs : List GoStr) :
    (hs.map Ev.data).filter (fun e => !(isData e)) = [] := by
  rw [List.filter_eq_nil_iff]
  intro e he
  obtain ⟨h, _, rfl⟩ := List.mem_map.mp he
  simp [isData]

theorem filter_isData_map_data (hs : List GoStr) :
    (hs.map Ev.data).filter (fun e => isData e) = hs.map Ev.data := by
  rw [List.filter_eq_self]
  intro e he
  obtain ⟨h, _, rfl⟩ := List.mem_map.mp he
  rfl

theorem completeCount_append_complete (p : List Ev) (msg : GoStr)
    (hp : ∀ e ∈ p, isData e = true) :
    completeCount (p ++ [Ev.complete msg]) = 1 := by
  unfold completeCount
  rw [List.filter_append]
  have h0 : p.filter (fun e => !(isData e)) = [] := by
    rw [List.filter_eq_nil_iff]
    intro e he
    simp [hp e he]
  rw [h0]
  rfl

theorem dnsCancel_ne_dnsDone (n : Nat) : dnsCancel ≠ dnsDone n := by
  intro h
  have h22 := congrArg (fun l : GoStr => l[22]?) h
  simp only [dnsDone] at h22
  rw [List.getElem?_append] at h22
  rw [if_pos (by decide : (22 : Nat) < dnsFixed.length)] at h22
  exact absurd h22 (by decide)

/-- C4 amended: the canonical server (cmd/server/main.go) emits no
terminal event at all, for any job.  In the historical part_005
variant, the wayback stream ends with exactly one terminal event of
kind complete, preceded only by data events, carrying the count of
discovered hosts on natural completion and the distinct cancellation
payload when cancellation is observed before the input is exhausted;
the dns stream HANDLER likewise writes exactly one terminal event of
kind complete per job on every control path, a naturally completed
dns job has all its worker data lines before the terminal whose
count equals their number, but after a dns cancellation terminal
event still-running workers may write further data lines, so there
the terminal need not be last; the completion and cancellation
payloads differ for every count, so the client can tell the two
terminal kinds apart by payload. -/
theorem p5_terminal_events (target : GoStr) (lines : List GoStr)
    (cancel : Option Nat) (n i : Nat) (hosts pre post : List GoStr)
    (subsLen count : Nat) (cancelInLoop : Option Nat) (doneFirst : Bool) :
    (∃ p msg, p5WaybackEvents target lines cancel =
      p ++ [Ev.complete msg] ∧ ∀ e ∈ p, isData e = true) ∧
    completeCount (p5WaybackEvents target lines cancel) = 1 ∧
    (cancel = none → ∃ hs : List GoStr,
      p5WaybackEvents target lines cancel =
        hs.map Ev.data ++ [Ev.complete (wbDone hs.length)]) ∧
    (cancel = some i → i < lines.length →
      ∃ p, p5WaybackEvents target lines cancel =
        p ++ [Ev.complete wbCancel]) ∧
    (p5DnsTerminalWrites subsLen cancelInLoop doneFirst count =
        [Ev.complete dnsCancel] ∨
      p5DnsTerminalWrites subsLen cancelInLoop doneFirst count =
        [Ev.complete (dnsDone count)]) ∧
    completeCount (p5DnsEventsNatural hosts) = 1 ∧
    dataCount (p5DnsEventsNatural hosts) = hosts.length ∧
    (p5DnsEventsNatural hosts).getLast? =
      some (Ev.complete (dnsDone hosts.length)) ∧
    completeCount (p5DnsEventsCancelled pre post) = 1 ∧
    (post ≠ [] → ∃ h2,
      (p5DnsEventsCancelled pre post).getLast? = some (Ev.data h2)) ∧
    wbCancel ≠ wbDone n ∧ dnsCancel ≠ dnsDone n := by
  obtain ⟨p0, msg0, hshape, hdata⟩ := p5Wayback_shape target lines [] cancel
  refine ⟨⟨p0, msg0, hshape, hdata⟩, ?_, ?_, ?_, ?_, ?_, ?_, ?_, ?_, ?_,
    wbCancel_ne_wbDone n, dnsCancel_ne_dnsDone n⟩
  · unfold p5WaybackEvents
    rw [hshape]
    exact completeCount_append_complete p0 msg0 hdata
  · rintro rfl
    obtain ⟨hs, heq⟩ := p5Wayback_natural target lines []
    exact ⟨hs, by simpa using heq⟩
  · rintro rfl hi
    exact p5Wayback_cancelled target lines i [] hi
  · unfold p5DnsTerminalWrites
    cases cancelInLoop with
    | none => cases doneFirst <;> simp
    | some j =>
      dsimp only
      by_cases hj : j < subsLen
      · rw [if_pos hj]
        exact Or.inl rfl
      · rw [if_neg hj]
        cases doneFirst <;> simp
  · exact completeCount_append_complete (hosts.map Ev.data) _
      (fun e he => by
        obtain ⟨h, _, rfl⟩ := List.mem_map.mp he
        rfl)
  · unfold dataCount p5DnsEventsNatural
    rw [List.filter_append, filter_isData_map_data]
    rw [show (([Ev.complete (dnsDone hosts.length)] : List Ev).filter
      (fun e => isData e)) = [] from rfl]
    simp
  · exact List.getLast?_concat _
  · unfold completeCount p5DnsEventsCancelled
    rw [List.filter_append, List.filter_append]
    rw [filter_not_isData_map_data, filter_not_isData_map_data]
    rfl
  · intro hpost
    unfold p5DnsEventsCancelled
    have hne : post.map Ev.data ≠ [] := by
      intro h0
      exact hpost (List.map_eq_nil_iff.mp h0)
    rw [getLast?_append_of_ne_nil _ _ hne]
    cases hp : post.getLast? with
    | none => exact absurd (List.getLast?_eq_none_iff.mp hp) hpost
    | some h2 =>
      refine ⟨h2, ?_⟩
      rw [List.getLast?_map, hp]
      rfl

/-- C4 amended witness: a cancelled concrete part_005 wayback stream
ends with the cancellation terminal event, and a cancelled concrete
part_005 dns stream with one late worker write ends with a data
event after its terminal event. -/
theorem p5_terminal_events_witness :
    (p5WaybackEvents (strL "example.com") [strL "http://a.example.com/"]
        (some 0)).getLast? = some (Ev.complete wbCancel) ∧
    (∃ h2, (p5DnsEventsCancelled [strL "www.example.com"]
        [strL "mail.example.com"]).getLast? = some (Ev.data h2)) := by
  constructor
  · obtain ⟨p, hp⟩ := (p5_terminal_events (strL "example.com")
      [strL "http://a.example.com/"] (some 0) 0 0 [] [] [] 0 0 none
      false).2.2.2.1 rfl (by decide)
    rw [hp]
    exact List.getLast?_concat _
  · exact (p5_terminal_events (strL "example.com")
      [strL "http://a.example.com/"] (some 0) 0 0 []
      [strL "www.example.com"] [strL "mail.example.com"] 0 0 none
      false).2.2.2.2.2.2.2.2.2.1 (by decide)

/-- C4 counterexample: a canonical (cmd/server/main.go) wayback job
that completes naturally produces only data events and no terminal
event of any kind, so the claim that every job ends with one of the
two terminal events fails on the canonical server. -/
theorem main_stream_ends_without_terminal :
    mainWaybackEvents (strL "example.com") [strL "http://a.example.com/x"]
        none = [Ev.data (strL "a.example.com")] ∧
    (mainWaybackEvents (strL "example.com") [strL "http://a.example.com/x"]
        none).all isData = true := by
  refine ⟨by decide, by decide⟩

theorem noWsRun_cons_head (a : Nat) (l : GoStr) :
    noWsRun (a :: l) = ((match l.head? with
      | some c => !(isReSpace a && isReSpace c)
      | none => true) && noWsRun l) := by
  cases l with
  | nil => rfl
  | cons b r => rfl

theorem reSpace_sub_goSpace {d : Nat} (h : isReSpace d = true) :
    isGoSpace d = true := by
  simp only [isReSpace, Bool.or_eq_true, beq_iff_eq] at h
  simp only [isGoSpace, Bool.or_eq_true, beq_iff_eq]
  omega

theorem collapse_props (s : GoStr) :
    noWsRun (collapseGo false s) = true ∧
    noWsRun (collapseGo true s) = true ∧
    ∀ c, (collapseGo true s).head? = some c → isReSpace c = false := by
  induction s with
  | nil =>
    refine ⟨rfl, rfl, ?_⟩
    intro c hc
    simp [collapseGo] at hc
  | cons a r ih =>
    obtain ⟨hF, hT, hH⟩ := ih
    cases hsp : isReSpace a with
    | true =>
      have e1 : collapseGo false (a :: r) = 32 :: collapseGo true r := by
        rw [collapseGo, if_pos hsp]
        rfl
      have e2 : collapseGo true (a :: r) = collapseGo true r := by
        rw [collapseGo, if_pos hsp]
        rfl
      refine ⟨?_, ?_, ?_⟩
      · rw [e1, noWsRun_cons_head]
        cases hh : (collapseGo true r).head? with
        | none => simp [hT]
        | some c => simp [hT, hH c hh]
      · rw [e2]
        exact hT
      · intro c hc
        rw [e2] at hc
        exact hH c hc
    | false =>
      have e1 : collapseGo false (a :: r) = a :: collapseGo false r := by
        rw [collapseGo, if_neg (by simp [hsp])]
      have e2 : collapseGo true (a :: r) = a :: collapseGo false r := by
        rw [collapseGo, if_neg (by simp [hsp])]
      refine ⟨?_, ?_, ?_⟩
      · rw [e1, noWsRun_cons_head]
        cases hh : (collapseGo false r).head? with
        | none => simp [hF]
        | some c => simp [hF, hsp]
      · rw [e2, noWsRun_cons_head]
        cases hh : (collapseGo false r).head? with
        | none => simp [hF]
        | some c => simp [hF, hsp]
      · intro c hc
        rw [e2] at hc
        simp only [List.head?_cons, Option.some.injEq] at hc
        rw [← hc]
        exact hsp

theorem nw_take (l : GoStr) : ∀ n, noWsRun l = true → noWsRun (l.take n) = true := by
  induction l with
  | nil =>
    intro n _
    rw [List.take_nil]
    rfl
  | cons a l ih =>
    intro n h
    cases n with
    | zero => rfl
    | succ m =>
      rw [List.take_succ_cons]
      cases l with
      | nil =>
        rw [List.take_nil]
        rfl
      | cons b r =>
        cases m with
        | zero => rfl
        | succ k =>
          rw [List.take_succ_cons]
          rw [noWsRun] at h ⊢
          rw [Bool.and_eq_true] at h ⊢
          refine ⟨h.1, ?_⟩
          have := ih (k + 1) h.2
          rwa [List.take_succ_cons] at this

theorem nw_append_dots (l : GoStr) (h : noWsRun l = true) :
    noWsRun (l ++ [46, 46, 46]) = true := by
  induction l with
  | nil => rfl
  | cons a l ih =>
    cases l with
    | nil => simp [noWsRun, isReSpace]
    | cons b r =>
      rw [noWsRun, Bool.and_eq_true] at h
      have hrec := ih h.2
      simp only [List.cons_append] at hrec ⊢
      rw [noWsRun, Bool.and_eq_true]
      exact ⟨h.1, hrec⟩

theorem formatTitle_length (t : GoStr) : (formatTitle t).length ≤ 103 := by
  unfold formatTitle
  by_cases h : 100 < (cleanTitle t).length
  · rw [if_pos h]
    have h3 : (strL "...").length = 3 := rfl
    rw [List.length_append, List.length_take, h3]
    omega
  · rw [if_neg h]
    omega

theorem formatTitle_nw (t : GoStr) : noWsRun (formatTitle t) = true := by
  unfold formatTitle
  by_cases h : 100 < (cleanTitle t).length
  · rw [if_pos h]
    have h1 : noWsRun (cleanTitle t) = true :=
      (collapse_props (replByte 13 32 (replByte 10 32 (trimSpaceGo t)))).1
    rw [show (strL "...") = [46, 46, 46] from rfl]
    exact nw_append_dots _ (nw_take _ 100 h1)
  · rw [if_neg h]
    exact (collapse_props (replByte 13 32 (replByte 10 32 (trimSpaceGo t)))).1

theorem head?_dropWhile_not (p : Nat → Bool) (l : GoStr) :
    ∀ c, (l.dropWhile p).head? = some c → p c = false := by
  induction l with
  | nil =>
    intro c hc
    simp [List.dropWhile] at hc
  | cons a l ih =>
    intro c hc
    rw [List.dropWhile_cons] at hc
    by_cases hp : p a = true
    · rw [if_pos hp] at hc
      exact ih c hc
    · rw [if_neg hp] at hc
      simp only [List.head?_cons, Option.some.injEq] at hc
      rw [← hc]
      simpa using hp

theorem trim_head (t : GoStr) :
    ∀ c, (trimSpaceGo t).head? = some c → isGoSpace c = false := by
  intro c hc
  unfold trimSpaceGo at hc
  rw [List.head?_reverse] at hc
  obtain ⟨u, hu⟩ := List.dropWhile_suffix
    (l := (t.dropWhile isGoSpace).reverse) isGoSpace
  have hX : (t.dropWhile isGoSpace).reverse.dropWhile isGoSpace ≠ [] := by
    intro h0
    rw [h0] at hc
    simp at hc
  have h2 : ((t.dropWhile isGoSpace).reverse).getLast? = some c := by
    rw [← hu, getLast?_append_of_ne_nil _ _ hX]
    exact hc
  rw [List.getLast?_reverse] at h2
  exact head?_dropWhile_not isGoSpace t c h2

theorem trim_last (t : GoStr) :
    ∀ c, (trimSpaceGo t).getLast? = some c → isGoSpace c = false := by
  intro c hc
  unfold trimSpaceGo at hc
  rw [List.getLast?_reverse] at hc
  exact head?_dropWhile_not isGoSpace (t.dropWhile isGoSpace).reverse c hc

theorem t3_head (t : GoStr) :
    ∀ d, (replByte 13 32 (replByte 10 32 (trimSpaceGo t))).head? = some d →
      isGoSpace d = false := by
  intro d hd
  unfold replByte at hd
  rw [List.head?_map, List.head?_map] at hd
  cases ht : (trimSpaceGo t).head? with
  | none =>
    rw [ht] at hd
    simp at hd
  | some e =>
    rw [ht] at hd
    simp only [Option.map_some', Option.some.injEq] at hd
    have he : isGoSpace e = false := trim_head t e ht
    have h10 : e ≠ 10 := by
      intro h
      rw [h] at he
      simp [isGoSpace] at he
    have h13 : e ≠ 13 := by
      intro h
      rw [h] at he
      simp [isGoSpace] at he
    simp only [if_neg h10, if_neg h13] at hd
    rw [← hd]
    exact he

theorem t3_last (t : GoStr) :
    ∀ d, (replByte 13 32 (replByte 10 32 (trimSpaceGo t))).getLast? = some d →
      isGoSpace d = false := by
  intro d hd
  unfold replByte at hd
  rw [List.getLast?_map, List.getLast?_map] at hd
  cases ht : (trimSpaceGo t).getLast? with
  | none =>
    rw [ht] at hd
    simp at hd
  | some e =>
    rw [ht] at hd
    simp only [Option.map_some', Option.some.injEq] at hd
    have he : isGoSpace e = false := trim_last t e ht
    have h10 : e ≠ 10 := by
      intro h
      rw [h] at he
      simp [isGoSpace] at he
    have h13 : e ≠ 13 := by
      intro h
      rw [h] at he
      simp [isGoSpace] at he
    simp only [if_neg h10, if_neg h13] at hd
    rw [← hd]
    exact he

theorem collapse_head_of_not_space (l : GoStr)
    (hd : ∀ d, l.head? = some d → isGoSpace d = false) :
    ∀ c, (collapseGo false l).head? = some c → isGoSpace c = false := by
  cases l with
  | nil =>
    intro c hc
    simp [collapseGo] at hc
  | cons d r =>
    intro c hc
    have hdd := hd d rfl
    have hre : isReSpace d = false := by
      cases hx : isReSpace d with
      | false => rfl
      | true => rw [reSpace_sub_goSpace hx] at hdd; cases hdd
    rw [collapseGo, if_neg (by simp [hre])] at hc
    simp only [List.head?_cons, Option.some.injEq] at hc
    rw [← hc]
    exact hdd

theorem collapse_getLast (l : GoStr) :
    ∀ (flag : Bool) (c : Nat), isReSpace c = false → l.getLast? = some c →
      (collapseGo flag l).getLast? = some c := by
  induction l with
  | nil =>
    intro flag c _ hl
    simp at hl
  | cons a r ih =>
    intro flag c hc hl
    cases r with
    | nil =>
      simp only [List.getLast?_singleton, Option.some.injEq] at hl
      rw [← hl] at hc ⊢
      rw [collapseGo, if_neg (by simp [hc])]
      rfl
    | cons b r2 =>
      have hl2 : (b :: r2).getLast? = some c := by
        rw [List.getLast?_cons_cons] at hl
        exact hl
      cases hsp : isReSpace a with
      | true =>
        cases flag with
        | true =>
          rw [collapseGo, if_pos hsp, if_pos rfl]
          exact ih true c hc hl2
        | false =>
          rw [collapseGo, if_pos hsp, if_neg (by simp)]
          have hrec := ih true c hc hl2
          cases hcoll : collapseGo true (b :: r2) with
          | nil => rw [hcoll] at hrec; simp at hrec
          | cons z zs =>
            rw [List.getLast?_cons_cons, ← hcoll]
            exact hrec
      | false =>
        rw [collapseGo, if_neg (by simp [hsp])]
        have hrec := ih false c hc hl2
        cases hcoll : collapseGo false (b :: r2) with
        | nil => rw [hcoll] at hrec; simp at hrec
        | cons z zs =>
          rw [List.getLast?_cons_cons, ← hcoll]
          exact hrec

theorem cleanTitle_noEdge (t : GoStr) : noEdgeWS (cleanTitle t) = true := by
  unfold noEdgeWS cleanTitle collapseWS
  rw [Bool.and_eq_true]
  constructor
  · cases hh : (collapseGo false
        (replByte 13 32 (replByte 10 32 (trimSpaceGo t)))).head? with
    | none => rfl
    | some c =>
      have := collapse_head_of_not_space _ (t3_head t) c hh
      simp [this]
  · cases hg : (collapseGo false
        (replByte 13 32 (replByte 10 32 (trimSpaceGo t)))).getLast? with
    | none => rfl
    | some c =>
      cases ht3 : (replByte 13 32 (replByte 10 32 (trimSpaceGo t))).getLast? with
      | none =>
        rw [List.getLast?_eq_none_iff.mp ht3] at hg
        simp [collapseGo] at hg
      | some e =>
        have he : isGoSpace e = false := t3_last t e ht3
        have hre : isReSpace e = false := by
          cases hx : isReSpace e with
          | false => rfl
          | true => rw [reSpace_sub_goSpace hx] at he; cases he
        have := collapse_getLast _ false e hre ht3
        rw [hg] at this
        simp only [Option.some.injEq] at this
        rw [this]
        simp [he]

/-- C6: the extracted title comes from the first title-tag match
(findTitleCapture); the result never exceeds 103 bytes (100 plus the
3-byte ellipsis marker), never contains a run of two adjacent
whitespace bytes (internal runs are collapsed to single spaces), is
the sentinel string when no match exists, and on a match equals the
trimmed and collapsed capture, truncated with the ellipsis marker
exactly when that cleaned text is longer than 100 bytes; the cleaned
text carries no leading or trailing whitespace. -/
theorem extractTitle_spec (html : GoStr) :
    (extractTitle html).length ≤ 103 ∧
    noWsRun (extractTitle html) = true ∧
    (findTitleCapture html = none → extractTitle html = strL "No title") ∧
    ∀ t, findTitleCapture html = some t →
      extractTitle html = formatTitle t ∧
      noEdgeWS (cleanTitle t) = true ∧
      ((cleanTitle t).length ≤ 100 → extractTitle html = cleanTitle t) ∧
      (100 < (cleanTitle t).length →
        extractTitle html = (cleanTitle t).take 100 ++ strL "...") := by
  unfold extractTitle
  cases hft : findTitleCapture html with
  | none =>
    dsimp only
    exact ⟨by decide, by decide, fun _ => rfl, fun t ht => nomatch ht⟩
  | some t0 =>
    dsimp only
    refine ⟨formatTitle_length t0, formatTitle_nw t0, ?_, ?_⟩
    · intro h
      simp at h
    intro t ht
    obtain rfl : t0 = t := by
      injection ht
    refine ⟨rfl, cleanTitle_noEdge t0, ?_, ?_⟩
    · intro hlen
      unfold formatTitle
      rw [if_neg (by omega)]
    · intro hlen
      unfold formatTitle
      rw [if_pos hlen]

set_option maxRecDepth 100000 in
/-- C6 witness: concrete sentinel, cleanup and truncation cases of
the title pipeline. -/
theorem extractTitle_spec_witness :
    extractTitle (strL "<p>x</p>") = strL "No title" ∧
    extractTitle (strL "<title>  a \n\n  b  </title>") =
      cleanTitle (strL "  a \n\n  b  ") ∧
    noEdgeWS (cleanTitle (strL "  a \n\n  b  ")) = true ∧
    extractTitle (strL "<title>" ++ List.replicate 120 120 ++ strL "</title>") =
      (cleanTitle (List.replicate 120 120)).take 100 ++ strL "..." :=
  ⟨(extractTitle_spec (strL "<p>x</p>")).2.2.1 (by decide),
   (((extractTitle_spec (strL "<title>  a \n\n  b  </title>")).2.2.2
      (strL "  a \n\n  b  ") (by decide)).2.2.1 (by decide)),
   (((extractTitle_spec (strL "<title>  a \n\n  b  </title>")).2.2.2
      (strL "  a \n\n  b  ") (by decide)).2.1),
   (((extractTitle_spec
        (strL "<title>" ++ List.replicate 120 120 ++ strL "</title>")).2.2.2
      (List.replicate 120 120) (by decide)).2.2.2 (by decide))⟩
